import Mathlib

set_option maxHeartbeats 1000000

/-!
Verification development for the WaRAG document chunking pipeline
(`rag-system/document_processor.py`): text extraction from PDF/DOCX,
whitespace normalization, page-marker based chunking, and the byte-level
entry point `process_document_from_bytes`.

Text is embedded as `List Char`.  Integer-valued page counters are `Nat`.
The recursive character splitter is an external library dependency whose
code is not part of this repository; it is modelled from the spec
(see `splitText` below).  Everything else is translated directly from
`document_processor.py`.
-/

/-- Python whitespace (`\s`, also the set removed by `str.strip`):
space, tab, newline, carriage return, vertical tab, form feed. -/
def isWs (c : Char) : Bool :=
  c = ' ' || c = '\t' || c = '\n' || c = '\r' || c.toNat = 11 || c.toNat = 12

/-- `str.strip()`: drop leading and trailing whitespace. -/
def stripChars (l : List Char) : List Char :=
  ((l.dropWhile isWs).reverse.dropWhile isWs).reverse

/-- Worker for `collapseWs`; the flag records whether the previous
character belonged to a whitespace run already replaced by a space. -/
def collapseWsAux : Bool → List Char → List Char
  | _, [] => []
  | inRun, c :: t =>
    if isWs c then
      if inRun then collapseWsAux true t
      else ' ' :: collapseWsAux true t
    else c :: collapseWsAux false t

/-- `re.sub(r'\s+', ' ', text)`: each maximal whitespace run becomes one space. -/
def collapseWs (l : List Char) : List Char :=
  collapseWsAux false l

/-- `re.sub(r'\s+', ' ', text).strip()` as used on every extracted PDF page. -/
def normalizeText (l : List Char) : List Char :=
  stripChars (collapseWs l)

/-- `os.path.basename`: the part after the last `/`. -/
def basenameChars (p : List Char) : List Char :=
  (p.reverse.takeWhile (fun c => c ≠ '/')).reverse

/-- `str.lower()` (ASCII suffices for the extensions involved). -/
def lowerChars (p : List Char) : List Char :=
  p.map Char.toLower

/-- Decimal digit character for `d % 10`. -/
def digitChar : Nat → Char
  | 0 => '0' | 1 => '1' | 2 => '2' | 3 => '3' | 4 => '4'
  | 5 => '5' | 6 => '6' | 7 => '7' | _ => '9'

/-- Fuelled worker for `natToChars` (any fuel above the digit count,
e.g. `n + 1`, is enough). -/
def natToCharsAux : Nat → Nat → List Char
  | 0, _ => []
  | fuel + 1, n =>
    if n < 10 then [digitChar n]
    else natToCharsAux fuel (n / 10) ++ [digitChar (n % 10)]

/-- Python `str(n)` for a natural number. -/
def natToChars (n : Nat) : List Char :=
  natToCharsAux (n + 1) n

/-- `int(s)` on a digit string. -/
def digitsVal (l : List Char) : Nat :=
  l.foldl (fun a c => 10 * a + (c.toNat - 48)) 0

/-- Leading match of `re` pattern `Page \d+: ` (the `re.sub` pattern of
`create_document_chunks`, trailing space included); returns the remainder
after the match. -/
def tryMarker : List Char → Option (List Char)
  | 'P' :: 'a' :: 'g' :: 'e' :: ' ' :: u =>
    if u.takeWhile Char.isDigit = [] then none
    else
      match u.dropWhile Char.isDigit with
      | ':' :: ' ' :: r => some r
      | _ => none
  | _ => none

/-- Fuelled worker for `removeMarkers` (any fuel at least the length of
the input is enough, since a marker match always consumes characters). -/
def removeMarkersAux : Nat → List Char → List Char
  | 0, l => l
  | fuel + 1, l =>
    match l with
    | [] => []
    | c :: t =>
      match tryMarker (c :: t) with
      | some r => removeMarkersAux fuel r
      | none => c :: removeMarkersAux fuel t

/-- `re.sub(r'Page \d+: ', '', chunk)`: remove every (non-overlapping,
leftmost-first) occurrence of a page marker. -/
def removeMarkers (l : List Char) : List Char :=
  removeMarkersAux l.length l

/-- `re.match(r'Page (\d+):', chunk)` followed by `int(group(1))`:
the page number when the chunk text starts with a page marker. -/
def pageMatch : List Char → Option Nat
  | 'P' :: 'a' :: 'g' :: 'e' :: ' ' :: u =>
    if u.takeWhile Char.isDigit = [] then none
    else
      match u.dropWhile Char.isDigit with
      | ':' :: _ => some (digitsVal (u.takeWhile Char.isDigit))
      | _ => none
  | _ => none

/-!
## The recursive character splitter

The pipeline delegates splitting to `RecursiveCharacterTextSplitter` with
`separators=["\n\n", "\n", ". ", ""]`, `length_function=len` and the given
`chunk_size` / `chunk_overlap`.  That splitter is an external library
dependency whose code is not part of this repository, so it is modelled
from the spec (§4.3 Step 2): the merged stream is split recursively on a
layered list of separators tried in priority order — blank line, newline,
sentence end, finally single characters — producing pieces within the
size budget; pieces are then re-merged greedily into chunks of at most
`chunk_size` characters, consecutive chunks retaining up to
`chunk_overlap` trailing characters of shared content, each emitted chunk
stripped of surrounding whitespace and dropped if empty.
-/

/-- Prepend a character to the first piece of a split list. -/
def consHead (c : Char) : List (List Char) → List (List Char)
  | [] => [[c]]
  | s :: ss => (c :: s) :: ss

/-- Split on a one-character separator (every occurrence, pieces may be empty). -/
def splitOn1 (a : Char) : List Char → List (List Char)
  | [] => [[]]
  | c :: t => if c = a then [] :: splitOn1 a t else consHead c (splitOn1 a t)

/-- Split on a two-character separator, leftmost non-overlapping occurrences. -/
def splitOn2 (a b : Char) : List Char → List (List Char)
  | [] => [[]]
  | [c] => [[c]]
  | c :: d :: t =>
    if c = a ∧ d = b then [] :: splitOn2 a b t
    else consHead c (splitOn2 a b (d :: t))

/-- Splitting with the empty separator: the list of single characters. -/
def charSplits (l : List Char) : List (List Char) :=
  l.map (fun c => [c])

/-- Whether a (non-empty) separator occurs as a contiguous substring. -/
def occursIn (sep : List Char) : List Char → Bool
  | [] => sep.isPrefixOf []
  | c :: t => sep.isPrefixOf (c :: t) || occursIn sep t

/-- Sum of the piece lengths. -/
def sumLens (l : List (List Char)) : Nat :=
  (l.map List.length).sum

/-- The running total the splitter maintains while merging: piece lengths
plus one separator between each pair of adjacent pieces. -/
def docTotal (sepLen : Nat) (l : List (List Char)) : Nat :=
  sumLens l + sepLen * (l.length - 1)

/-- `separator.join(docs)`. -/
def joinSep (sep : List Char) : List (List Char) → List Char
  | [] => []
  | [x] => x
  | x :: y :: r => x ++ sep ++ joinSep sep (y :: r)

/-- Join the accumulated pieces, strip, drop the chunk if nothing is left. -/
def joinDocs (sep : List Char) (docs : List (List Char)) : Option (List Char) :=
  let t := stripChars (joinSep sep docs)
  if t = [] then none else some t

/-- After emitting a chunk the splitter pops pieces from the front of the
window while its total exceeds `chunk_overlap`, or while keeping them
would not leave room for the next piece. -/
def popWhile (cs co dLen sepLen : Nat) : List (List Char) → List (List Char)
  | [] => []
  | p :: rest =>
    if docTotal sepLen (p :: rest) > co ∨
        (docTotal sepLen (p :: rest) + dLen + sepLen > cs ∧
          docTotal sepLen (p :: rest) > 0) then
      popWhile cs co dLen sepLen rest
    else p :: rest

/-- Greedy merge of (in-budget) pieces into chunks of size at most
`chunk_size`, joined by the separator, with sliding-window overlap. -/
def mergeAux (cs co : Nat) (sep : List Char) :
    List (List Char) → List (List Char) → List (List Char)
  | current, [] => (joinDocs sep current).toList
  | current, d :: rest =>
    if docTotal sep.length current + d.length +
        (if current = [] then 0 else sep.length) > cs then
      (joinDocs sep current).toList ++
        mergeAux cs co sep (popWhile cs co d.length sep.length current ++ [d]) rest
    else
      mergeAux cs co sep (current ++ [d]) rest

/-- Merge a run of pieces that each fit the budget. -/
def merge_splits (cs co : Nat) (sep : List Char) (splits : List (List Char)) :
    List (List Char) :=
  mergeAux cs co sep [] splits

/-- One separator level: pieces below `chunk_size` are accumulated and
merged; an oversized piece is handed to the next separator level
(`handleBad`), or kept whole at the last level. -/
def goSplits (cs co : Nat) (sep : List Char)
    (handleBad : List Char → List (List Char)) :
    List (List Char) → List (List Char) → List (List Char)
  | [], good => if good = [] then [] else merge_splits cs co sep good
  | s :: rest, good =>
    if s.length < cs then goSplits cs co sep handleBad rest (good ++ [s])
    else
      (if good = [] then [] else merge_splits cs co sep good) ++
        handleBad s ++ goSplits cs co sep handleBad rest []

/-- Last resort: split into single characters (always within budget for
`chunk_size ≥ 2`; an oversized piece would be kept whole). -/
def splitL3 (cs co : Nat) (t : List Char) : List (List Char) :=
  goSplits cs co [] (fun s => [s]) ((charSplits t).filter (fun p => p ≠ [])) []

/-- Sentence-end level: split on `". "` when it occurs, else fall through. -/
def splitL2 (cs co : Nat) (t : List Char) : List (List Char) :=
  if occursIn ['.', ' '] t then
    goSplits cs co ['.', ' '] (splitL3 cs co)
      ((splitOn2 '.' ' ' t).filter (fun p => p ≠ [])) []
  else splitL3 cs co t

/-- Newline level: split on `"\n"` when it occurs, else fall through. -/
def splitL1 (cs co : Nat) (t : List Char) : List (List Char) :=
  if occursIn ['\n'] t then
    goSplits cs co ['\n'] (splitL2 cs co)
      ((splitOn1 '\n' t).filter (fun p => p ≠ [])) []
  else splitL2 cs co t

/-- Blank-line level: split on `"\n\n"` when it occurs, else fall through. -/
def splitL0 (cs co : Nat) (t : List Char) : List (List Char) :=
  if occursIn ['\n', '\n'] t then
    goSplits cs co ['\n', '\n'] (splitL1 cs co)
      ((splitOn2 '\n' '\n' t).filter (fun p => p ≠ [])) []
  else splitL1 cs co t

/-- Modelled from the spec: `RecursiveCharacterTextSplitter.split_text`
with separators `["\n\n", "\n", ". ", ""]` (§4.3 Step 2; the splitter
itself is an external library, not part of this repository's source). -/
def splitText (cs co : Nat) (t : List Char) : List (List Char) :=
  splitL0 cs co t

/-!
## Data model and the chunking pipeline (from `document_processor.py`)
-/

/-- One entry of `all_text`: a page number and its extracted text. -/
structure PageInfo where
  page : Nat
  text : List Char
deriving DecidableEq

/-- The document-level metadata dict built by the extractors.  PDF fills
all fields; DOCX has no `creator`, `producer` or `total_pages` keys. -/
structure DocMeta where
  title : List Char
  author : List Char
  subject : List Char
  creator : Option (List Char)
  producer : Option (List Char)
  total_pages : Option Nat
  file_name : List Char
  file_type : List Char
deriving DecidableEq

/-- The metadata dict attached to one chunk:
`{"page": …, "chunk": …, "source": metadata["file_name"], **metadata}`. -/
structure ChunkMeta where
  page : Nat
  chunk : Nat
  source : List Char
  title : List Char
  author : List Char
  subject : List Char
  creator : Option (List Char)
  producer : Option (List Char)
  total_pages : Option Nat
  file_name : List Char
  file_type : List Char
deriving DecidableEq

/-- A langchain `Document`: chunk text plus metadata. -/
structure ChunkDoc where
  page_content : List Char
  metadata : ChunkMeta
deriving DecidableEq

/-- `f"Page {page_info['page']}: {page_info['text']}"`. -/
def pageMarked (p : PageInfo) : List Char :=
  "Page ".toList ++ natToChars p.page ++ ": ".toList ++ p.text

/-- The merged chunk metadata dict. -/
def mergeMeta (pg chunkIdx : Nat) (m : DocMeta) : ChunkMeta :=
  { page := pg, chunk := chunkIdx, source := m.file_name,
    title := m.title, author := m.author, subject := m.subject,
    creator := m.creator, producer := m.producer,
    total_pages := m.total_pages, file_name := m.file_name,
    file_type := m.file_type }

/-- `for i, chunk in enumerate(chunks)` of `create_document_chunks`:
page from the leading `Page (\d+):` marker (default 1), marker
occurrences removed from the stored text, chunk index `i + 1`. -/
def mkChunkDocs (m : DocMeta) : Nat → List (List Char) → List ChunkDoc
  | _, [] => []
  | i, chunk :: rest =>
    { page_content := removeMarkers chunk,
      metadata := mergeMeta ((pageMatch chunk).getD 1) (i + 1) m } ::
      mkChunkDocs m (i + 1) rest

/-- `create_document_chunks(all_text, metadata, chunk_size, chunk_overlap)`. -/
def create_document_chunks (all_text : List PageInfo) (metadata : DocMeta)
    (chunk_size chunk_overlap : Nat) : List ChunkDoc :=
  let combined_text := joinSep ['\n', '\n'] (all_text.map pageMarked)
  mkChunkDocs metadata 0 (splitText chunk_size chunk_overlap combined_text)

/-- One positioned text block of a PDF page (`page.get_text("blocks")`
yields tuples whose entry 1 is the top `y` coordinate and entry 4 the
block text). -/
structure PdfBlock where
  y0 : Int
  text : List Char
deriving DecidableEq

/-- A parsed PDF: embedded metadata strings (each defaulting to `""`
when absent) and the positioned text blocks of each physical page. -/
structure PdfDoc where
  title : List Char
  author : List Char
  subject : List Char
  creator : List Char
  producer : List Char
  pages : List (List PdfBlock)
deriving DecidableEq

/-- Stable insertion of a block into a `y0`-sorted list: the inserted
block goes before any block with an equal coordinate that originally
followed it. -/
def insertByY (b : PdfBlock) : List PdfBlock → List PdfBlock
  | [] => [b]
  | x :: t => if x.y0 < b.y0 then x :: insertByY b t else b :: x :: t

/-- `text_blocks.sort(key=lambda b: b[1])`: Python's sort is stable, and
a stable sort by a total key is unique, so stable insertion sort gives
the same list. -/
def sortBlocksByY : List PdfBlock → List PdfBlock
  | [] => []
  | b :: t => insertByY b (sortBlocksByY t)

/-- Per-page text: blocks sorted by vertical position, block texts joined
with newlines, whitespace runs collapsed, trimmed. -/
def pdfPageText (blocks : List PdfBlock) : List Char :=
  normalizeText (joinSep ['\n'] ((sortBlocksByY blocks).map PdfBlock.text))

/-- The `for page_num, page in enumerate(doc)` loop: pages whose cleaned
text is empty are skipped, the rest keep their 1-based physical number. -/
def pdfPagesLoop : Nat → List (List PdfBlock) → List PageInfo
  | _, [] => []
  | i, blocks :: rest =>
    let t := pdfPageText blocks
    if t = [] then pdfPagesLoop (i + 1) rest
    else ⟨i + 1, t⟩ :: pdfPagesLoop (i + 1) rest

/-- The PDF metadata dict. -/
def pdfDocMeta (d : PdfDoc) (pdf_path : List Char) : DocMeta :=
  { title := d.title, author := d.author, subject := d.subject,
    creator := some d.creator, producer := some d.producer,
    total_pages := some d.pages.length,
    file_name := basenameChars pdf_path, file_type := "pdf".toList }

/-- `extract_text_from_pdf(pdf_path, chunk_size, chunk_overlap)` (success
path, the document already parsed; an empty page list is returned as an
empty chunk list, not an error). -/
def extract_text_from_pdf (d : PdfDoc) (pdf_path : List Char)
    (chunk_size chunk_overlap : Nat) : List ChunkDoc :=
  let all_text := pdfPagesLoop 0 d.pages
  if all_text = [] then []
  else create_document_chunks all_text (pdfDocMeta d pdf_path) chunk_size chunk_overlap

/-- A parsed DOCX: core properties (each `or ""`), body paragraph texts,
and tables as rows of cell texts. -/
structure DocxDoc where
  title : List Char
  author : List Char
  subject : List Char
  paragraphs : List (List Char)
  tables : List (List (List (List Char)))
deriving DecidableEq

/-- `paragraphs_text`: stripped non-empty paragraph texts, then stripped
non-empty table cell texts. -/
def docxParagraphTexts (d : DocxDoc) : List (List Char) :=
  (d.paragraphs.filterMap fun p =>
    if stripChars p = [] then none else some (stripChars p)) ++
  (d.tables.bind fun tb => tb.bind fun row =>
    row.filterMap fun cell =>
      if stripChars cell = [] then none else some (stripChars cell))

/-- The synthetic-page loop: paragraphs are appended to a running buffer
(with a blank-line separator); once the buffer exceeds 1000 characters it
is emitted (stripped) as one page and a fresh buffer starts; a non-empty
final buffer becomes a last page. -/
def docxPagesLoop : List (List Char) → List Char → Nat → List PageInfo
  | [], cur, pg => if stripChars cur = [] then [] else [⟨pg, stripChars cur⟩]
  | p :: rest, cur, pg =>
    let cur2 := cur ++ p ++ ['\n', '\n']
    if cur2.length > 1000 then ⟨pg, stripChars cur2⟩ :: docxPagesLoop rest [] (pg + 1)
    else docxPagesLoop rest cur2 pg

/-- The DOCX metadata dict (no `creator`/`producer`/`total_pages` keys). -/
def docxDocMeta (d : DocxDoc) (docx_path : List Char) : DocMeta :=
  { title := d.title, author := d.author, subject := d.subject,
    creator := none, producer := none, total_pages := none,
    file_name := basenameChars docx_path, file_type := "docx".toList }

/-- `extract_text_from_docx(docx_path, chunk_size, chunk_overlap)`
(success path, the document already parsed; no extractable text is
returned as an empty chunk list, not an error). -/
def extract_text_from_docx (d : DocxDoc) (docx_path : List Char)
    (chunk_size chunk_overlap : Nat) : List ChunkDoc :=
  let paragraphs_text := docxParagraphTexts d
  if paragraphs_text = [] then []
  else
    create_document_chunks (docxPagesLoop paragraphs_text [] 1)
      (docxDocMeta d docx_path) chunk_size chunk_overlap

/-- The document bytes, abstracted by what each format parser would
produce from them (`none` = the parser raises on these bytes). -/
structure DocBytes where
  asPdf : Option PdfDoc
  asDocx : Option DocxDoc
deriving DecidableEq

/-- Index of the last occurrence of a character (`str.rfind`, `-1` if absent). -/
def lastIdxAux (c : Char) : List Char → Nat → Int → Int
  | [], _, acc => acc
  | x :: t, i, acc => lastIdxAux c t (i + 1) (if x = c then (i : Int) else acc)

/-- `str.rfind(c)`. -/
def lastIdxOf (c : Char) (l : List Char) : Int :=
  lastIdxAux c l 0 (-1)

/-- The extension part of `os.path.splitext`: everything from the last
dot, unless that dot only leads a run of dots at the start of the base
name (then there is no extension). -/
def splitextExt (p : List Char) : List Char :=
  let si := lastIdxOf '/' p
  let di := lastIdxOf '.' p
  if si < di then
    if ((p.drop (si + 1).toNat).take (di - si - 1).toNat).all (fun c => c = '.') then
      []
    else p.drop di.toNat
  else []

/-- The post-extraction loop of `process_document_from_bytes`:
`doc.metadata["source"] = filename; doc.metadata["file_name"] = filename`. -/
def setFilename (filename : List Char) (c : ChunkDoc) : ChunkDoc :=
  { c with metadata := { c.metadata with source := filename, file_name := filename } }

/-- `process_document_from_bytes(doc_bytes, filename, chunk_size,
chunk_overlap)`.  The bytes are written to a scratch file (`temp_path`,
whose randomly suffixed name is threaded into the extractors and shows up
in the intermediate metadata), dispatch is on the lower-cased filename
extension, unrecognized extensions raise the "Unsupported document type"
error without any parser touching the bytes, and after extraction every
chunk's `source` and `file_name` are overwritten with the original
filename. -/
def process_document_from_bytes (doc_bytes : DocBytes)
    (filename temp_path : List Char) (chunk_size chunk_overlap : Nat) :
    Except (List Char) (List ChunkDoc) :=
  let file_ext := splitextExt (lowerChars filename)
  if file_ext = ".pdf".toList then
    match doc_bytes.asPdf with
    | some d =>
      .ok ((extract_text_from_pdf d temp_path chunk_size chunk_overlap).map
        (setFilename filename))
    | none => .error ("Error extracting text from PDF".toList)
  else if file_ext = ".docx".toList ∨ file_ext = ".doc".toList then
    match doc_bytes.asDocx with
    | some d =>
      .ok ((extract_text_from_docx d temp_path chunk_size chunk_overlap).map
        (setFilename filename))
    | none => .error ("Error extracting text from DOCX".toList)
  else .error ("Unsupported document type: ".toList ++ file_ext)

/-- `process_pdf_from_bytes(pdf_bytes, filename="document.pdf",
chunk_size=1000, chunk_overlap=100)`: backward compatibility wrapper. -/
def process_pdf_from_bytes (pdf_bytes : DocBytes)
    (filename : List Char := "document.pdf".toList) (temp_path : List Char := [])
    (chunk_size : Nat := 1000) (chunk_overlap : Nat := 100) :
    Except (List Char) (List ChunkDoc) :=
  process_document_from_bytes pdf_bytes filename temp_path chunk_size chunk_overlap

/-- No suffix of the text begins with a `Page \d+: ` marker (so
`removeMarkers` leaves the text untouched). -/
def markerFreeB : List Char → Bool
  | [] => true
  | c :: t => (tryMarker (c :: t)).isNone && markerFreeB t

/-!
## Concrete sample documents used by witnesses and counterexamples
-/

/-- A sample metadata dict. -/
def sampleMeta : DocMeta :=
  ⟨[], [], [], none, none, none, "f.pdf".toList, "pdf".toList⟩

/-- Two normalized pages where the second page's marked text overflows a
chunk budget of 10. -/
def samplePages : List PageInfo :=
  [⟨1, "ab".toList⟩, ⟨2, "cdefghijklmnop".toList⟩]

/-- A single page whose own text contains a `Page 2: `-shaped substring. -/
def fakeMarkerPages : List PageInfo :=
  [⟨1, "a Page 2: b".toList⟩]

/-- A DOCX whose 2500 characters of paragraph text form one single
paragraph, so no break is available before the page threshold. -/
def docxOnePara : DocxDoc :=
  ⟨[], [], [], [List.replicate 2500 'a'], []⟩

/-- A DOCX whose 2500 characters of paragraph text arrive as five
500-character paragraphs. -/
def docxFivePara : DocxDoc :=
  ⟨[], [], [], List.replicate 5 (List.replicate 500 'a'), []⟩

/-- A PDF whose single page has only whitespace text blocks. -/
def blankPdf : PdfDoc :=
  ⟨[], [], [], [], [], [[⟨0, "  ".toList⟩, ⟨3, " \t ".toList⟩]]⟩

/-- A DOCX with only whitespace paragraphs and cells. -/
def blankDocx : DocxDoc :=
  ⟨[], [], [], ["  ".toList], [[[" \t ".toList]]]⟩

/-- Bytes no parser accepts. -/
def opaqueBytes : DocBytes := ⟨none, none⟩

/-- Bytes that parse as the blank PDF. -/
def blankPdfBytes : DocBytes := ⟨some blankPdf, none⟩

/-- Bytes that parse as the blank DOCX. -/
def blankDocxBytes : DocBytes := ⟨none, some blankDocx⟩

/-!
## Lemmas about the text utilities
-/

theorem tryMarker_eq_some {l r : List Char} (h : tryMarker l = some r) :
    ∃ ds, ds ≠ [] ∧ (∀ c ∈ ds, c.isDigit) ∧
      l = 'P' :: 'a' :: 'g' :: 'e' :: ' ' :: (ds ++ ':' :: ' ' :: r) := by
  rw [tryMarker.eq_def] at h
  split at h
  · rename_i u
    split at h
    · exact absurd h (by simp)
    · rename_i hne
      split at h
      · rename_i r' heq
        refine ⟨u.takeWhile Char.isDigit, hne, ?_, ?_⟩
        · intro c hc
          exact List.mem_takeWhile_imp hc
        · cases h
          congr 1
          conv_lhs =>
            rw [← List.takeWhile_append_dropWhile (p := Char.isDigit) (l := u)]
          rw [heq]
      · exact absurd h (by simp)
  · exact absurd h (by simp)

theorem stripChars_length_le (l : List Char) :
    (stripChars l).length ≤ l.length := by
  unfold stripChars
  have h1 : (List.dropWhile isWs l).length ≤ l.length :=
    (List.dropWhile_suffix isWs).length_le
  have h2 : (List.dropWhile isWs (List.dropWhile isWs l).reverse).length ≤
      (List.dropWhile isWs l).reverse.length :=
    (List.dropWhile_suffix isWs).length_le
  simp only [List.length_reverse] at *
  omega

theorem dropWhile_getLast?_eq {p : Char → Bool} {l : List Char}
    (hm : l.dropWhile p ≠ []) : l.getLast? = (l.dropWhile p).getLast? := by
  conv_lhs => rw [← List.takeWhile_append_dropWhile p l]
  exact List.getLast?_append_of_ne_nil _ hm

theorem mem_of_getLast?_eq_some {m : List Char} {c : Char}
    (h : m.getLast? = some c) : c ∈ m := by
  have hne : m ≠ [] := by rintro rfl; simp at h
  rw [List.getLast?_eq_getLast m hne] at h
  have := Option.some.inj h
  rw [← this]
  exact List.getLast_mem hne

theorem stripChars_getLast?_not_ws {l : List Char} (h : stripChars l ≠ []) :
    ∃ c, (stripChars l).getLast? = some c ∧ isWs c = false := by
  have hmne : (l.dropWhile isWs).reverse.dropWhile isWs ≠ [] := by
    intro he
    apply h
    unfold stripChars
    rw [he]
    rfl
  refine ⟨((l.dropWhile isWs).reverse.dropWhile isWs).head hmne, ?_, ?_⟩
  · unfold stripChars
    rw [List.getLast?_reverse]
    exact List.head?_eq_head hmne
  · exact List.head_dropWhile_not isWs _ hmne

theorem stripChars_ne_nil_of_getLast?_not_ws {l : List Char} {c : Char}
    (h : l.getLast? = some c) (hc : isWs c = false) : stripChars l ≠ [] := by
  intro he
  have h1 : (l.dropWhile isWs).reverse.dropWhile isWs = [] := by
    have h2 := congrArg List.reverse he
    simpa [stripChars] using h2
  have hall : ∀ x ∈ l.dropWhile isWs, isWs x := by
    intro x hx
    exact List.dropWhile_eq_nil_iff.mp h1 x (List.mem_reverse.mpr hx)
  by_cases hd : l.dropWhile isWs = []
  · have halll : ∀ x ∈ l, isWs x := List.dropWhile_eq_nil_iff.mp hd
    have hcl : c ∈ l := mem_of_getLast?_eq_some h
    have := halll c hcl
    rw [hc] at this
    exact Bool.noConfusion this
  · have hgl : (l.dropWhile isWs).getLast? = some c :=
      (dropWhile_getLast?_eq hd).symm.trans h
    have hcl : c ∈ l.dropWhile isWs := mem_of_getLast?_eq_some hgl
    have := hall c hcl
    rw [hc] at this
    exact Bool.noConfusion this

theorem tryMarker_length_lt {l r : List Char} (h : tryMarker l = some r) :
    r.length < l.length := by
  obtain ⟨ds, -, -, rfl⟩ := tryMarker_eq_some h
  simp
  omega

theorem removeMarkersAux_length_le (fuel : Nat) (l : List Char) :
    (removeMarkersAux fuel l).length ≤ l.length := by
  induction fuel generalizing l with
  | zero => simp [removeMarkersAux]
  | succ fuel ih =>
    match l with
    | [] => simp [removeMarkersAux]
    | c :: t =>
      rw [removeMarkersAux]
      cases hm : tryMarker (c :: t) with
      | some r =>
        have hlt := tryMarker_length_lt hm
        exact le_trans (ih r) (Nat.le_of_lt hlt)
      | none =>
        simpa using ih t

theorem removeMarkers_length_le (l : List Char) :
    (removeMarkers l).length ≤ l.length :=
  removeMarkersAux_length_le l.length l


theorem getLast?_cons_of_ne_nil {x : Char} {xs : List Char} (h : xs ≠ []) :
    (x :: xs).getLast? = xs.getLast? := by
  have : x :: xs = [x] ++ xs := rfl
  rw [this]
  exact List.getLast?_append_of_ne_nil _ h

theorem removeMarkersAux_getLast? (fuel : Nat) (l : List Char) {c : Char}
    (hl : l.getLast? = some c) (hc : isWs c = false) :
    (removeMarkersAux fuel l).getLast? = some c := by
  induction fuel generalizing l with
  | zero => simpa [removeMarkersAux] using hl
  | succ fuel ih =>
    match l with
    | [] => simp at hl
    | x :: t =>
      rw [removeMarkersAux]
      cases hm : tryMarker (x :: t) with
      | some r =>
        obtain ⟨ds, -, -, heq⟩ := tryMarker_eq_some hm
        have heq2 : x :: t = ['P', 'a', 'g', 'e', ' '] ++ ds ++ [':'] ++ (' ' :: r) := by
          rw [heq]; simp
        have hrne : r ≠ [] := by
          rintro rfl
          rw [heq2] at hl
          rw [List.getLast?_append_of_ne_nil _ (by simp : (' ' :: ([] : List Char)) ≠ [])] at hl
          have := Option.some.inj hl
          rw [← this] at hc
          simp [isWs] at hc
        have hrl : r.getLast? = some c := by
          rw [heq2] at hl
          rw [List.getLast?_append_of_ne_nil _ (by simp : (' ' :: r) ≠ []),
            getLast?_cons_of_ne_nil hrne] at hl
          exact hl
        exact ih r hrl
      | none =>
        by_cases ht : t = []
        · subst ht
          have hrm : removeMarkersAux fuel ([] : List Char) = [] := by
            cases fuel <;> simp [removeMarkersAux]
          rw [hrm]
          simpa using hl
        · have hlt : t.getLast? = some c := by
            rw [getLast?_cons_of_ne_nil ht] at hl
            exact hl
          have hr := ih t hlt
          have hrne : removeMarkersAux fuel t ≠ [] := by
            intro he
            rw [he] at hr
            simp at hr
          rw [getLast?_cons_of_ne_nil hrne]
          exact hr

theorem removeMarkers_getLast? {l : List Char} {c : Char}
    (hl : l.getLast? = some c) (hc : isWs c = false) :
    (removeMarkers l).getLast? = some c :=
  removeMarkersAux_getLast? l.length l hl hc

theorem strip_removeMarkers_ne_nil {raw : List Char}
    (h : stripChars raw ≠ []) :
    stripChars (removeMarkers (stripChars raw)) ≠ [] := by
  obtain ⟨c, hlast, hws⟩ := stripChars_getLast?_not_ws h
  exact stripChars_ne_nil_of_getLast?_not_ws (removeMarkers_getLast? hlast hws) hws

/-!
## Lemmas about the splitter
-/

theorem sumLens_nil : sumLens [] = 0 := rfl

theorem sumLens_cons (x : List Char) (l : List (List Char)) :
    sumLens (x :: l) = x.length + sumLens l := by
  simp [sumLens]

theorem sumLens_append (a b : List (List Char)) :
    sumLens (a ++ b) = sumLens a + sumLens b := by
  simp [sumLens]

theorem joinSep_length (sep : List Char) (l : List (List Char)) :
    (joinSep sep l).length = docTotal sep.length l := by
  match l with
  | [] => simp [joinSep, docTotal, sumLens]
  | [x] => simp [joinSep, docTotal, sumLens]
  | x :: y :: r =>
    have ih := joinSep_length sep (y :: r)
    rw [joinSep]
    simp only [List.length_append, ih, docTotal, sumLens_cons, List.length_cons,
      Nat.add_sub_cancel]
    rw [Nat.mul_succ]
    omega

theorem docTotal_nil (sl : Nat) : docTotal sl [] = 0 := by
  simp [docTotal, sumLens]

theorem docTotal_append_singleton (sl : Nat) (l : List (List Char)) (d : List Char) :
    docTotal sl (l ++ [d]) =
      docTotal sl l + d.length + (if l = [] then 0 else sl) := by
  cases l with
  | nil => simp [docTotal, sumLens]
  | cons x t =>
    simp only [docTotal, sumLens_append, sumLens_cons, List.length_append,
      List.length_cons, sumLens_nil, if_neg (List.cons_ne_nil x t),
      List.length_nil, Nat.add_sub_cancel]
    rw [Nat.mul_succ]
    omega

theorem docTotal_zero_iff {sl : Nat} {l : List (List Char)}
    (h : ∀ p ∈ l, p ≠ []) : docTotal sl l = 0 ↔ l = [] := by
  constructor
  · intro hz
    cases l with
    | nil => rfl
    | cons x t =>
      exfalso
      have hx := h x (by simp)
      have : 0 < x.length := List.length_pos.mpr hx
      simp only [docTotal, sumLens_cons] at hz
      omega
  · rintro rfl
    exact docTotal_nil sl

theorem joinDocs_spec {sep : List Char} {docs : List (List Char)} {c : List Char}
    (h : c ∈ (joinDocs sep docs).toList) :
    c = stripChars (joinSep sep docs) ∧ c ≠ [] := by
  simp only [joinDocs] at h
  split at h
  · simp at h
  · rename_i hne
    simp only [Option.toList_some, List.mem_singleton] at h
    exact ⟨h, h ▸ hne⟩

theorem joinDocs_length_le {sep : List Char} {docs : List (List Char)} {c : List Char}
    {cs : Nat} (h : c ∈ (joinDocs sep docs).toList)
    (hd : docTotal sep.length docs ≤ cs) : c.length ≤ cs := by
  obtain ⟨rfl, -⟩ := joinDocs_spec h
  calc (stripChars (joinSep sep docs)).length
      ≤ (joinSep sep docs).length := stripChars_length_le _
    _ = docTotal sep.length docs := joinSep_length sep docs
    _ ≤ cs := hd

theorem popWhile_mem {cs co dLen sl : Nat} {l : List (List Char)} :
    ∀ p ∈ popWhile cs co dLen sl l, p ∈ l := by
  induction l with
  | nil => simp [popWhile]
  | cons x t ih =>
    intro p hp
    rw [popWhile] at hp
    split at hp
    · exact List.mem_cons_of_mem x (ih p hp)
    · exact hp

theorem popWhile_post (cs co dLen sl : Nat) (l : List (List Char)) :
    docTotal sl (popWhile cs co dLen sl l) ≤ co ∧
      (docTotal sl (popWhile cs co dLen sl l) + dLen + sl ≤ cs ∨
        docTotal sl (popWhile cs co dLen sl l) = 0) := by
  induction l with
  | nil =>
    rw [popWhile, docTotal_nil]
    exact ⟨Nat.zero_le co, Or.inr rfl⟩
  | cons x t ih =>
    rw [popWhile]
    split
    · exact ih
    · rename_i hcond
      push_neg at hcond
      obtain ⟨h1, h2⟩ := hcond
      refine ⟨h1, ?_⟩
      by_cases hb : docTotal sl (x :: t) + dLen + sl ≤ cs
      · exact Or.inl hb
      · have := h2 (by omega)
        omega


theorem mergeAux_spec {cs co : Nat} {sep : List Char} :
    ∀ (splits current : List (List Char)),
      (∀ p ∈ current, p ≠ []) →
      (∀ d ∈ splits, d ≠ [] ∧ d.length < cs) →
      docTotal sep.length current ≤ cs →
      ∀ c ∈ mergeAux cs co sep current splits,
        c.length ≤ cs ∧ c ≠ [] ∧ ∃ raw, c = stripChars raw := by
  intro splits
  induction splits with
  | nil =>
    intro current h1 h2 h3 c hc
    rw [mergeAux] at hc
    exact ⟨joinDocs_length_le hc h3, (joinDocs_spec hc).2,
      joinSep sep current, (joinDocs_spec hc).1⟩
  | cons d rest ih =>
    intro current h1 h2 h3 c hc
    rw [mergeAux] at hc
    have hd := h2 d (List.mem_cons_self d rest)
    by_cases hov : docTotal sep.length current + d.length +
        (if current = [] then 0 else sep.length) > cs
    · rw [if_pos hov] at hc
      rcases List.mem_append.mp hc with hc1 | hc2
      · exact ⟨joinDocs_length_le hc1 h3, (joinDocs_spec hc1).2,
          joinSep sep current, (joinDocs_spec hc1).1⟩
      · have hpm : ∀ p ∈ popWhile cs co d.length sep.length current, p ≠ [] :=
          fun p hp => h1 p (popWhile_mem p hp)
        refine ih (popWhile cs co d.length sep.length current ++ [d]) ?_ ?_ ?_ c hc2
        · intro p hp
          rcases List.mem_append.mp hp with h | h
          · exact hpm p h
          · rw [List.mem_singleton.mp h]
            exact hd.1
        · intro x hx
          exact h2 x (List.mem_cons_of_mem d hx)
        · rw [docTotal_append_singleton]
          obtain ⟨hco, hcs⟩ := popWhile_post cs co d.length sep.length current
          by_cases hpe : popWhile cs co d.length sep.length current = []
          · rw [if_pos hpe, hpe, docTotal_nil]
            omega
          · rw [if_neg hpe]
            rcases hcs with hfit | hzero
            · omega
            · exact absurd ((docTotal_zero_iff hpm).mp hzero) hpe
    · rw [if_neg hov] at hc
      refine ih (current ++ [d]) ?_ ?_ ?_ c hc
      · intro p hp
        rcases List.mem_append.mp hp with h | h
        · exact h1 p h
        · rw [List.mem_singleton.mp h]
          exact hd.1
      · intro x hx
        exact h2 x (List.mem_cons_of_mem d hx)
      · rw [docTotal_append_singleton]
        omega

theorem merge_splits_spec {cs co : Nat} {sep : List Char}
    {splits : List (List Char)}
    (h2 : ∀ d ∈ splits, d ≠ [] ∧ d.length < cs) :
    ∀ c ∈ merge_splits cs co sep splits,
      c.length ≤ cs ∧ c ≠ [] ∧ ∃ raw, c = stripChars raw := by
  intro c hc
  exact mergeAux_spec splits [] (by simp) h2
    (by rw [docTotal_nil]; exact Nat.zero_le cs) c hc


theorem goSplits_spec {cs co : Nat} {sep : List Char}
    {handleBad : List Char → List (List Char)} :
    ∀ (splits good : List (List Char)),
      (∀ d ∈ splits, d ≠ []) →
      (∀ g ∈ good, g ≠ [] ∧ g.length < cs) →
      (∀ s ∈ splits, ¬ s.length < cs →
        ∀ c ∈ handleBad s, c.length ≤ cs ∧ c ≠ [] ∧ ∃ raw, c = stripChars raw) →
      ∀ c ∈ goSplits cs co sep handleBad splits good,
        c.length ≤ cs ∧ c ≠ [] ∧ ∃ raw, c = stripChars raw := by
  intro splits
  induction splits with
  | nil =>
    intro good hs hg hb c hc
    rw [goSplits] at hc
    split at hc
    · simp at hc
    · exact merge_splits_spec hg c hc
  | cons s rest ih =>
    intro good hs hg hb c hc
    rw [goSplits] at hc
    by_cases hlen : s.length < cs
    · rw [if_pos hlen] at hc
      refine ih (good ++ [s]) (fun d hd => hs d (List.mem_cons_of_mem s hd)) ?_
        (fun x hx hbad => hb x (List.mem_cons_of_mem s hx) hbad) c hc
      intro g hg2
      rcases List.mem_append.mp hg2 with h | h
      · exact hg g h
      · rw [List.mem_singleton.mp h]
        exact ⟨hs s (List.mem_cons_self s rest), hlen⟩
    · rw [if_neg hlen] at hc
      rcases List.mem_append.mp hc with hcAB | hcC
      · rcases List.mem_append.mp hcAB with hcA | hcB
        · by_cases hge : good = []
          · rw [if_pos hge] at hcA
            simp at hcA
          · rw [if_neg hge] at hcA
            exact merge_splits_spec hg c hcA
        · exact hb s (List.mem_cons_self s rest) hlen c hcB
      · exact ih [] (fun d hd => hs d (List.mem_cons_of_mem s hd)) (by simp)
          (fun x hx hbad => hb x (List.mem_cons_of_mem s hx) hbad) c hcC

theorem splitL3_spec {cs co : Nat} (h2 : 2 ≤ cs) (t : List Char) :
    ∀ c ∈ splitL3 cs co t, c.length ≤ cs ∧ c ≠ [] ∧ ∃ raw, c = stripChars raw := by
  intro c hc
  refine goSplits_spec _ [] ?_ (by simp) ?_ c hc
  · intro d hd
    simpa using (List.mem_filter.mp hd).2
  · intro s hs hlen c' hc'
    exfalso
    obtain ⟨x, -, rfl⟩ := List.mem_map.mp (List.mem_filter.mp hs).1
    exact hlen (by simpa using h2)

theorem splitL2_spec {cs co : Nat} (h2 : 2 ≤ cs) (t : List Char) :
    ∀ c ∈ splitL2 cs co t, c.length ≤ cs ∧ c ≠ [] ∧ ∃ raw, c = stripChars raw := by
  intro c hc
  rw [splitL2] at hc
  split at hc
  · refine goSplits_spec _ [] ?_ (by simp) ?_ c hc
    · intro d hd
      simpa using (List.mem_filter.mp hd).2
    · intro s hs hlen c' hc'
      exact splitL3_spec h2 s c' hc'
  · exact splitL3_spec h2 t c hc

theorem splitL1_spec {cs co : Nat} (h2 : 2 ≤ cs) (t : List Char) :
    ∀ c ∈ splitL1 cs co t, c.length ≤ cs ∧ c ≠ [] ∧ ∃ raw, c = stripChars raw := by
  intro c hc
  rw [splitL1] at hc
  split at hc
  · refine goSplits_spec _ [] ?_ (by simp) ?_ c hc
    · intro d hd
      simpa using (List.mem_filter.mp hd).2
    · intro s hs hlen c' hc'
      exact splitL2_spec h2 s c' hc'
  · exact splitL2_spec h2 t c hc

theorem splitText_spec {cs co : Nat} (h2 : 2 ≤ cs) (t : List Char) :
    ∀ c ∈ splitText cs co t, c.length ≤ cs ∧ c ≠ [] ∧ ∃ raw, c = stripChars raw := by
  intro c hc
  rw [splitText, splitL0] at hc
  split at hc
  · refine goSplits_spec _ [] ?_ (by simp) ?_ c hc
    · intro d hd
      simpa using (List.mem_filter.mp hd).2
    · intro s hs hlen c' hc'
      exact splitL1_spec h2 s c' hc'
  · exact splitL1_spec h2 t c hc

/-!
## Lemmas about `create_document_chunks` and the entry points
-/

theorem mem_mkChunkDocs {m : DocMeta} :
    ∀ (i : Nat) (chunks : List (List Char)) (c : ChunkDoc),
      c ∈ mkChunkDocs m i chunks →
      ∃ ch ∈ chunks, c.page_content = removeMarkers ch := by
  intro i chunks
  induction chunks generalizing i with
  | nil => intro c hc; simp [mkChunkDocs] at hc
  | cons ch rest ih =>
    intro c hc
    rw [mkChunkDocs] at hc
    rcases List.mem_cons.mp hc with h | h
    · exact ⟨ch, List.mem_cons_self ch rest, by rw [h]⟩
    · obtain ⟨ch', hm, he⟩ := ih (i + 1) c h
      exact ⟨ch', List.mem_cons_of_mem ch hm, he⟩

theorem mem_create_document_chunks {pages : List PageInfo} {meta : DocMeta}
    {cs co : Nat} {c : ChunkDoc}
    (hc : c ∈ create_document_chunks pages meta cs co) :
    ∃ ch ∈ splitText cs co (joinSep ['\n', '\n'] (pages.map pageMarked)),
      c.page_content = removeMarkers ch := by
  rw [create_document_chunks] at hc
  exact mem_mkChunkDocs 0 _ c hc

theorem mem_process_ok {b : DocBytes} {fn s : List Char} {cs co : Nat}
    {out : List ChunkDoc} (h : process_document_from_bytes b fn s cs co = .ok out) :
    ∀ c ∈ out, ∃ (pages : List PageInfo) (meta : DocMeta),
      c ∈ (create_document_chunks pages meta cs co).map (setFilename fn) := by
  intro c hc
  rw [process_document_from_bytes] at h
  by_cases h1 : splitextExt (lowerChars fn) = ".pdf".toList
  · rw [if_pos h1] at h
    cases hb : b.asPdf with
    | none => rw [hb] at h; exact absurd h (by simp)
    | some d =>
      rw [hb] at h
      simp only [Except.ok.injEq] at h
      subst h
      rw [extract_text_from_pdf] at hc
      by_cases hp : pdfPagesLoop 0 d.pages = []
      · rw [if_pos hp] at hc
        simp at hc
      · rw [if_neg hp] at hc
        exact ⟨pdfPagesLoop 0 d.pages, pdfDocMeta d s, hc⟩
  · rw [if_neg h1] at h
    by_cases h2 : splitextExt (lowerChars fn) = ".docx".toList ∨
        splitextExt (lowerChars fn) = ".doc".toList
    · rw [if_pos h2] at h
      cases hb : b.asDocx with
      | none => rw [hb] at h; exact absurd h (by simp)
      | some d =>
        rw [hb] at h
        simp only [Except.ok.injEq] at h
        subst h
        rw [extract_text_from_docx] at hc
        by_cases hp : docxParagraphTexts d = []
        · rw [if_pos hp] at hc
          simp at hc
        · rw [if_neg hp] at hc
          exact ⟨docxPagesLoop (docxParagraphTexts d) [] 1, docxDocMeta d s, hc⟩
    · rw [if_neg h2] at h
      exact absurd h (by simp)

theorem setFilename_page_content (fn : List Char) (c : ChunkDoc) :
    (setFilename fn c).page_content = c.page_content := rfl

/-- C1: for every document and every valid `(chunk_size, chunk_overlap)`
with `0 < chunk_overlap < chunk_size`, every chunk emitted by
`create_document_chunks` — and hence by `extract_text_from_pdf`,
`extract_text_from_docx` and `process_document_from_bytes`, which all
return its output — has text of character length at most `chunk_size`. -/
theorem c1_chunk_length_le_chunk_size :
    (∀ (pages : List PageInfo) (meta : DocMeta) (cs co : Nat),
        0 < co → co < cs →
        ∀ c ∈ create_document_chunks pages meta cs co,
          c.page_content.length ≤ cs) ∧
    (∀ (b : DocBytes) (fn s : List Char) (cs co : Nat) (out : List ChunkDoc),
        0 < co → co < cs →
        process_document_from_bytes b fn s cs co = .ok out →
        ∀ c ∈ out, c.page_content.length ≤ cs) := by
  have hcreate : ∀ (pages : List PageInfo) (meta : DocMeta) (cs co : Nat),
      0 < co → co < cs →
      ∀ c ∈ create_document_chunks pages meta cs co,
        c.page_content.length ≤ cs := by
    intro pages meta cs co hco hcs c hc
    obtain ⟨ch, hch, he⟩ := mem_create_document_chunks hc
    have hspec := splitText_spec (by omega) _ ch hch
    rw [he]
    exact le_trans (removeMarkers_length_le ch) hspec.1
  refine ⟨hcreate, ?_⟩
  intro b fn s cs co out hco hcs h c hc
  obtain ⟨pages, meta, hm⟩ := mem_process_ok h c hc
  obtain ⟨c', hc', rfl⟩ := List.mem_map.mp hm
  rw [setFilename_page_content]
  exact hcreate pages meta cs co hco hcs c' hc'

/-- Witness for C1 at a concrete two-page document with
`chunk_size = 10`, `chunk_overlap = 3`. -/
theorem c1_witness :
    0 < 3 ∧ 3 < 10 ∧
      ∀ c ∈ create_document_chunks samplePages sampleMeta 10 3,
        c.page_content.length ≤ 10 :=
  ⟨by decide, by decide,
    c1_chunk_length_le_chunk_size.1 samplePages sampleMeta 10 3
      (by decide) (by decide)⟩

/-- C4: for every document and valid splitter parameters, every chunk
returned by the pipeline has text that is non-empty after trimming
whitespace (the splitter never emits a whitespace-only chunk, and marker
removal always leaves the chunk's final non-whitespace character). -/
theorem c4_chunk_text_nonempty_after_trim :
    (∀ (pages : List PageInfo) (meta : DocMeta) (cs co : Nat),
        0 < co → co < cs →
        ∀ c ∈ create_document_chunks pages meta cs co,
          stripChars c.page_content ≠ []) ∧
    (∀ (b : DocBytes) (fn s : List Char) (cs co : Nat) (out : List ChunkDoc),
        0 < co → co < cs →
        process_document_from_bytes b fn s cs co = .ok out →
        ∀ c ∈ out, stripChars c.page_content ≠ []) := by
  have hcreate : ∀ (pages : List PageInfo) (meta : DocMeta) (cs co : Nat),
      0 < co → co < cs →
      ∀ c ∈ create_document_chunks pages meta cs co,
        stripChars c.page_content ≠ [] := by
    intro pages meta cs co hco hcs c hc
    obtain ⟨ch, hch, he⟩ := mem_create_document_chunks hc
    obtain ⟨-, hne, raw, hraw⟩ := splitText_spec (by omega) _ ch hch
    rw [he, hraw]
    exact strip_removeMarkers_ne_nil (hraw ▸ hne)
  refine ⟨hcreate, ?_⟩
  intro b fn s cs co out hco hcs h c hc
  obtain ⟨pages, meta, hm⟩ := mem_process_ok h c hc
  obtain ⟨c', hc', rfl⟩ := List.mem_map.mp hm
  rw [setFilename_page_content]
  exact hcreate pages meta cs co hco hcs c' hc'

/-- Witness for C4 at the same concrete document. -/
theorem c4_witness :
    0 < 3 ∧ 3 < 10 ∧
      ∀ c ∈ create_document_chunks samplePages sampleMeta 10 3,
        stripChars c.page_content ≠ [] :=
  ⟨by decide, by decide,
    c4_chunk_text_nonempty_after_trim.1 samplePages sampleMeta 10 3
      (by decide) (by decide)⟩

theorem mkChunkDocs_length (m : DocMeta) :
    ∀ (i : Nat) (chunks : List (List Char)),
      (mkChunkDocs m i chunks).length = chunks.length := by
  intro i chunks
  induction chunks generalizing i with
  | nil => simp [mkChunkDocs]
  | cons ch rest ih => simp [mkChunkDocs, ih]

theorem mkChunkDocs_chunk_indices (m : DocMeta) :
    ∀ (chunks : List (List Char)) (i : Nat),
      (mkChunkDocs m i chunks).map (fun c => c.metadata.chunk) =
        List.range' (i + 1) chunks.length := by
  intro chunks
  induction chunks with
  | nil => intro i; simp [mkChunkDocs]
  | cons ch rest ih =>
    intro i
    rw [mkChunkDocs]
    simp only [List.map_cons, List.length_cons, List.range'_succ, mergeMeta]
    rw [ih (i + 1)]

/-- C2: for every document, the `chunk` metadata values of the returned
sequence are exactly `1, 2, …, N` in order (`N` = number of chunks):
1-based, contiguous, strictly increasing. -/
theorem c2_chunk_indices_are_one_to_n
    (pages : List PageInfo) (meta : DocMeta) (cs co : Nat) :
    (create_document_chunks pages meta cs co).map (fun c => c.metadata.chunk) =
      List.range' 1 (create_document_chunks pages meta cs co).length := by
  rw [create_document_chunks, mkChunkDocs_length, mkChunkDocs_chunk_indices]

/-- C3 counterexample: with pages `[1 ↦ "ab", 2 ↦ "cdefghijklmnop"]` and
`chunk_size = 10`, `chunk_overlap = 3` (valid: `0 < 3 < 10`), the emitted
page metadata sequence is `[1, 2, 1, 1]` — the third chunk starts
mid-page without a leading `Page N:` marker and is assigned the default
page 1, so the sequence is not monotonically non-decreasing. -/
theorem c3_counterexample :
    ((create_document_chunks samplePages sampleMeta 10 3).map
        (fun c => c.metadata.page)) = [1, 2, 1, 1] ∧
      ¬ List.Pairwise (· ≤ ·)
        ((create_document_chunks samplePages sampleMeta 10 3).map
          (fun c => c.metadata.page)) := by
  have h : ((create_document_chunks samplePages sampleMeta 10 3).map
      (fun c => c.metadata.page)) = [1, 2, 1, 1] := by decide
  refine ⟨h, ?_⟩
  rw [h]
  intro hp
  have h21 := (List.pairwise_cons.mp (List.pairwise_cons.mp hp).2).1 1 (by simp)
  omega

/-!
## Lemmas about digits, markers and normalized text
-/

theorem isDigit_toNat {c : Char} (h : c.isDigit = true) :
    48 ≤ c.toNat ∧ c.toNat ≤ 57 := by
  simp [Char.isDigit] at h
  exact h

theorem isDigit_not_ws {c : Char} (h : c.isDigit = true) : isWs c = false := by
  obtain ⟨h1, h2⟩ := isDigit_toNat h
  cases hw : isWs c
  · rfl
  · exfalso
    simp only [isWs, Bool.or_eq_true, decide_eq_true_eq] at hw
    have hn : c.toNat < 48 := by
      rcases hw with ((((h3 | h3) | h3) | h3) | h3) | h3
      · have h4 := congrArg Char.toNat h3
        rw [show (' ' : Char).toNat = 32 from rfl] at h4
        omega
      · have h4 := congrArg Char.toNat h3
        rw [show ('\t' : Char).toNat = 9 from rfl] at h4
        omega
      · have h4 := congrArg Char.toNat h3
        rw [show ('\n' : Char).toNat = 10 from rfl] at h4
        omega
      · have h4 := congrArg Char.toNat h3
        rw [show ('\r' : Char).toNat = 13 from rfl] at h4
        omega
      · omega
      · omega
    omega

theorem digitChar_isDigit (d : Nat) : (digitChar d).isDigit = true := by
  unfold digitChar
  split <;> decide

theorem natToCharsAux_digits (fuel : Nat) :
    ∀ (n : Nat), ∀ c ∈ natToCharsAux fuel n, c.isDigit = true := by
  induction fuel with
  | zero => intro n c hc; simp [natToCharsAux] at hc
  | succ fuel ih =>
    intro n c hc
    rw [natToCharsAux] at hc
    split at hc
    · rw [List.mem_singleton.mp hc]
      exact digitChar_isDigit n
    · rcases List.mem_append.mp hc with h | h
      · exact ih (n / 10) c h
      · rw [List.mem_singleton.mp h]
        exact digitChar_isDigit (n % 10)

theorem natToChars_digits (n : Nat) :
    ∀ c ∈ natToChars n, c.isDigit = true :=
  natToCharsAux_digits (n + 1) n

theorem natToChars_ne_nil (n : Nat) : natToChars n ≠ [] := by
  rw [natToChars, natToCharsAux]
  split <;> simp

theorem takeWhile_all_append {p : Char → Bool} {a : List Char} {b : Char}
    {r : List Char} (ha : ∀ c ∈ a, p c = true) (hb : p b = false) :
    (a ++ b :: r).takeWhile p = a ∧ (a ++ b :: r).dropWhile p = b :: r := by
  induction a with
  | nil => simp [List.takeWhile, List.dropWhile, hb]
  | cons x t ih =>
    have hx := ha x (List.mem_cons_self x t)
    have ht := ih (fun c hc => ha c (List.mem_cons_of_mem x hc))
    simp only [List.cons_append, List.takeWhile_cons, List.dropWhile_cons, hx,
      if_true, ht.1, ht.2]
    simp

theorem tryMarker_marked {ds t : List Char} (hne : ds ≠ [])
    (hds : ∀ c ∈ ds, c.isDigit = true) :
    tryMarker ('P' :: 'a' :: 'g' :: 'e' :: ' ' :: (ds ++ ':' :: ' ' :: t)) =
      some t := by
  obtain ⟨htake, hdrop⟩ :=
    takeWhile_all_append (p := Char.isDigit) (b := ':') (r := ' ' :: t) hds
      (by decide)
  rw [tryMarker.eq_def]
  simp only [htake, hdrop, if_neg hne]

theorem pageMatch_marked {ds t : List Char} (hne : ds ≠ [])
    (hds : ∀ c ∈ ds, c.isDigit = true) :
    pageMatch ('P' :: 'a' :: 'g' :: 'e' :: ' ' :: (ds ++ ':' :: ' ' :: t)) =
      some (digitsVal ds) := by
  obtain ⟨htake, hdrop⟩ :=
    takeWhile_all_append (p := Char.isDigit) (b := ':') (r := ' ' :: t) hds
      (by decide)
  rw [pageMatch.eq_def]
  simp only [htake, hdrop, if_neg hne]

theorem removeMarkersAux_of_markerFree :
    ∀ (fuel : Nat) (t : List Char), markerFreeB t = true →
      removeMarkersAux fuel t = t := by
  intro fuel
  induction fuel with
  | zero => intro t _; rfl
  | succ fuel ih =>
    intro t hmf
    match t with
    | [] => rfl
    | c :: r =>
      rw [markerFreeB, Bool.and_eq_true] at hmf
      rw [removeMarkersAux]
      cases hm : tryMarker (c :: r) with
      | some x =>
        rw [hm] at hmf
        simp at hmf
      | none =>
        rw [ih r hmf.2]

theorem collapseWsAux_mem_ws {c : Char} :
    ∀ (b : Bool) (l : List Char), c ∈ collapseWsAux b l → isWs c = true →
      c = ' ' := by
  intro b l
  induction l generalizing b with
  | nil => intro hc _; simp [collapseWsAux] at hc
  | cons x t ih =>
    intro hc hw
    rw [collapseWsAux] at hc
    split at hc
    · split at hc
      · exact ih _ hc hw
      · rcases List.mem_cons.mp hc with h | h
        · exact h
        · exact ih _ h hw
    · rcases List.mem_cons.mp hc with h | h
      · rename_i hx
        rw [← h] at hx
        exact absurd hw hx
      · exact ih _ h hw

theorem mem_stripChars {c : Char} {l : List Char} (h : c ∈ stripChars l) :
    c ∈ l := by
  unfold stripChars at h
  rw [List.mem_reverse] at h
  have h1 := (List.dropWhile_suffix isWs).subset h
  rw [List.mem_reverse] at h1
  exact (List.dropWhile_suffix isWs).subset h1

theorem normalized_ws_mem {t : List Char} (hn : normalizeText t = t) {c : Char}
    (hc : c ∈ t) (hw : isWs c = true) : c = ' ' := by
  rw [← hn] at hc
  have h1 := mem_stripChars hc
  exact collapseWsAux_mem_ws false t h1 hw

theorem occursIn_eq_false {c0 : Char} {s l : List Char}
    (h : ∀ x ∈ l, x ≠ c0) : occursIn (c0 :: s) l = false := by
  induction l with
  | nil => rfl
  | cons x t ih =>
    rw [occursIn]
    have hx : (List.isPrefixOf (c0 :: s) (x :: t)) = false := by
      rw [List.isPrefixOf]
      have := h x (List.mem_cons_self x t)
      simp only [Bool.and_eq_false_iff]
      left
      simp [BEq.beq]
      intro he
      exact absurd he.symm this
    rw [hx]
    simp only [Bool.false_or]
    exact ih (fun y hy => h y (List.mem_cons_of_mem x hy))

theorem stripChars_eq_self {l : List Char} (hl : l ≠ [])
    {a z : Char} (hhead : l.head? = some a) (ha : isWs a = false)
    (hlast : l.getLast? = some z) (hz : isWs z = false) :
    stripChars l = l := by
  match l, hl with
  | x :: t, _ =>
    have hax : a = x := by
      simp only [List.head?_cons, Option.some.injEq] at hhead
      exact hhead.symm
    subst hax
    unfold stripChars
    rw [List.dropWhile_cons, ha]
    simp only [Bool.false_eq_true, if_false]
    cases hrev : (a :: t).reverse with
    | nil => exact absurd (congrArg List.length hrev) (by simp)
    | cons y ys =>
      have hy : y = z := by
        have := List.head?_reverse (a :: t)
        rw [hrev] at this
        simp only [List.head?_cons] at this
        rw [hlast] at this
        exact Option.some.inj this
      subst hy
      rw [List.dropWhile_cons, hz]
      simp only [Bool.false_eq_true, if_false]
      rw [← hrev, List.reverse_reverse]

theorem docTotal_le_append (sl : Nat) (l r : List (List Char)) :
    docTotal sl l ≤ docTotal sl (l ++ r) := by
  simp only [docTotal, sumLens_append, List.length_append]
  have h1 : sl * (l.length - 1) ≤ sl * (l.length + r.length - 1) :=
    Nat.mul_le_mul_left sl (by omega)
  omega

theorem mergeAux_all_fits {cs co : Nat} {sep : List Char} :
    ∀ (splits current : List (List Char)),
      docTotal sep.length (current ++ splits) ≤ cs →
      mergeAux cs co sep current splits =
        (joinDocs sep (current ++ splits)).toList := by
  intro splits
  induction splits with
  | nil =>
    intro current _
    rw [mergeAux, List.append_nil]
  | cons d rest ih =>
    intro current hle
    rw [mergeAux]
    have hstep : docTotal sep.length current + d.length +
        (if current = [] then 0 else sep.length) ≤ cs := by
      rw [← docTotal_append_singleton]
      calc docTotal sep.length (current ++ [d])
          ≤ docTotal sep.length ((current ++ [d]) ++ rest) :=
            docTotal_le_append sep.length (current ++ [d]) rest
        _ = docTotal sep.length (current ++ d :: rest) := by
            rw [List.append_assoc]
            rfl
        _ ≤ cs := hle
    rw [if_neg (by omega)]
    rw [ih (current ++ [d]) (by rw [List.append_assoc]; exact hle)]
    rw [List.append_assoc]
    rfl

theorem goSplits_all_good {cs co : Nat} {sep : List Char}
    {handleBad : List Char → List (List Char)} :
    ∀ (splits good : List (List Char)),
      (∀ s ∈ splits, s.length < cs) →
      goSplits cs co sep handleBad splits good =
        (if good ++ splits = [] then [] else merge_splits cs co sep (good ++ splits)) := by
  intro splits
  induction splits with
  | nil =>
    intro good _
    rw [goSplits, List.append_nil]
  | cons s rest ih =>
    intro good hs
    rw [goSplits, if_pos (hs s (List.mem_cons_self s rest)),
      ih (good ++ [s]) (fun x hx => hs x (List.mem_cons_of_mem s hx))]
    rw [List.append_assoc]
    rfl

theorem sumLens_charSplits (l : List Char) :
    sumLens (charSplits l) = l.length := by
  induction l with
  | nil => rfl
  | cons c t ih =>
    rw [show charSplits (c :: t) = [c] :: charSplits t from rfl, sumLens_cons, ih]
    simp only [List.length_cons, List.length_nil]
    omega

theorem joinSep_nil_charSplits (l : List Char) :
    joinSep [] (charSplits l) = l := by
  induction l with
  | nil => rfl
  | cons c t ih =>
    cases t with
    | nil => rfl
    | cons d r =>
      have hstep : joinSep ([] : List Char) (charSplits (c :: d :: r)) =
          [c] ++ [] ++ joinSep [] (charSplits (d :: r)) := rfl
      rw [hstep, ih]
      simp

theorem charSplits_filter (l : List Char) :
    (charSplits l).filter (fun p => p ≠ []) = charSplits l := by
  rw [List.filter_eq_self]
  intro a ha
  obtain ⟨c, -, rfl⟩ := List.mem_map.mp ha
  simp

theorem splitText_single_chunk {cs co : Nat} (hcs2 : 2 ≤ cs) {text : List Char}
    (hnl : '\n' ∉ text) (hdot : '.' ∉ text)
    (hlen : text.length ≤ cs) (hstr : stripChars text = text)
    (htne : text ≠ []) :
    splitText cs co text = [text] := by
  have h0 : occursIn ['\n', '\n'] text = false :=
    occursIn_eq_false (fun x hx he => hnl (he ▸ hx))
  have h1 : occursIn ['\n'] text = false :=
    occursIn_eq_false (fun x hx he => hnl (he ▸ hx))
  have h2 : occursIn ['.', ' '] text = false :=
    occursIn_eq_false (fun x hx he => hdot (he ▸ hx))
  rw [splitText, splitL0, h0]
  simp only [Bool.false_eq_true, if_false]
  rw [splitL1, h1]
  simp only [Bool.false_eq_true, if_false]
  rw [splitL2, h2]
  simp only [Bool.false_eq_true, if_false]
  rw [splitL3, charSplits_filter]
  rw [goSplits_all_good _ _ (fun s hs => by
    obtain ⟨c, -, rfl⟩ := List.mem_map.mp hs
    simpa using hcs2)]
  rw [List.nil_append]
  rw [if_neg (by
    intro he
    exact htne (by simpa [charSplits] using congrArg List.length he))]
  rw [merge_splits, mergeAux_all_fits _ _ (by
    rw [List.nil_append]
    simp only [docTotal, List.length_nil, Nat.zero_mul, sumLens_charSplits]
    simpa using hlen)]
  rw [List.nil_append, joinDocs, joinSep_nil_charSplits, hstr]
  simp [htne]

theorem pageMarked_eq (n : Nat) (t : List Char) :
    pageMarked ⟨n, t⟩ =
      'P' :: 'a' :: 'g' :: 'e' :: ' ' :: (natToChars n ++ ':' :: ' ' :: t) := by
  show "Page ".toList ++ natToChars n ++ ": ".toList ++ t = _
  rw [show "Page ".toList = ['P', 'a', 'g', 'e', ' '] from rfl,
    show ": ".toList = [':', ' '] from rfl]
  simp

theorem combined_getLast? {n : Nat} {t : List Char} (ht : t ≠ []) :
    ('P' :: 'a' :: 'g' :: 'e' :: ' ' ::
      (natToChars n ++ ':' :: ' ' :: t)).getLast? = t.getLast? := by
  have hin : natToChars n ++ ':' :: ' ' :: t ≠ [] := by simp
  rw [getLast?_cons_of_ne_nil (by simp), getLast?_cons_of_ne_nil (by simp),
    getLast?_cons_of_ne_nil (by simp), getLast?_cons_of_ne_nil (by simp),
    getLast?_cons_of_ne_nil hin,
    List.getLast?_append_of_ne_nil _ (by simp : (':' :: ' ' :: t) ≠ []),
    getLast?_cons_of_ne_nil (by simp), getLast?_cons_of_ne_nil ht]

theorem mem_marked {n : Nat} {t : List Char} {c : Char}
    (hc : c ∈ 'P' :: 'a' :: 'g' :: 'e' :: ' ' ::
      (natToChars n ++ ':' :: ' ' :: t)) :
    c ∈ ['P', 'a', 'g', 'e', ' ', ':'] ∨ c.isDigit = true ∨ c ∈ t := by
  simp only [List.mem_cons, List.mem_append] at hc
  rcases hc with h | h | h | h | h | h
  · exact Or.inl (by simp [h])
  · exact Or.inl (by simp [h])
  · exact Or.inl (by simp [h])
  · exact Or.inl (by simp [h])
  · exact Or.inl (by simp [h])
  · rcases h with h | h | h | h
    · exact Or.inr (Or.inl (natToChars_digits n c h))
    · exact Or.inl (by simp [h])
    · exact Or.inl (by simp [h])
    · exact Or.inr (Or.inr h)

theorem create_single_page (n : Nat) (t : List Char) (meta : DocMeta)
    (cs co : Nat) (hco : 0 < co) (hcs : co < cs) (ht : t ≠ [])
    (hnorm : normalizeText t = t) (hmf : markerFreeB t = true)
    (hdot : '.' ∉ t) (hlen : 7 + (natToChars n).length + t.length ≤ cs) :
    create_document_chunks [⟨n, t⟩] meta cs co =
      [⟨t, mergeMeta (digitsVal (natToChars n)) 1 meta⟩] := by
  have hndne := natToChars_ne_nil n
  have hnd := natToChars_digits n
  have hwst : ∀ c ∈ t, isWs c = true → c = ' ' := fun c hc hw =>
    normalized_ws_mem hnorm hc hw
  -- the merged stream is the single marked page
  have hcomb : joinSep ['\n', '\n'] ([(⟨n, t⟩ : PageInfo)].map pageMarked) =
      'P' :: 'a' :: 'g' :: 'e' :: ' ' :: (natToChars n ++ ':' :: ' ' :: t) := by
    rw [show ([(⟨n, t⟩ : PageInfo)].map pageMarked) = [pageMarked ⟨n, t⟩] from rfl]
    rw [show joinSep ['\n', '\n'] [pageMarked ⟨n, t⟩] = pageMarked ⟨n, t⟩ from rfl]
    exact pageMarked_eq n t
  -- characters of the marked page
  have hnl : '\n' ∉ ('P' :: 'a' :: 'g' :: 'e' :: ' ' ::
      (natToChars n ++ ':' :: ' ' :: t)) := by
    intro hc
    rcases mem_marked hc with h | h | h
    · exact absurd h (by decide)
    · exact absurd h (by decide)
    · exact absurd (hwst '\n' h (by decide)) (by decide)
  have hdc : '.' ∉ ('P' :: 'a' :: 'g' :: 'e' :: ' ' ::
      (natToChars n ++ ':' :: ' ' :: t)) := by
    intro hc
    rcases mem_marked hc with h | h | h
    · exact absurd h (by decide)
    · exact absurd h (by decide)
    · exact hdot h
  -- surrounding whitespace facts
  have hstrip_t : stripChars (collapseWs t) ≠ [] := by
    rw [show stripChars (collapseWs t) = normalizeText t from rfl, hnorm]
    exact ht
  obtain ⟨z, hz1, hz2⟩ := stripChars_getLast?_not_ws hstrip_t
  rw [show stripChars (collapseWs t) = normalizeText t from rfl, hnorm] at hz1
  have hlast : ('P' :: 'a' :: 'g' :: 'e' :: ' ' ::
      (natToChars n ++ ':' :: ' ' :: t)).getLast? = some z := by
    rw [combined_getLast? ht]
    exact hz1
  have hstrip : stripChars ('P' :: 'a' :: 'g' :: 'e' :: ' ' ::
      (natToChars n ++ ':' :: ' ' :: t)) =
      'P' :: 'a' :: 'g' :: 'e' :: ' ' :: (natToChars n ++ ':' :: ' ' :: t) :=
    stripChars_eq_self (by simp) rfl (by decide) hlast hz2
  -- the splitter returns the whole stream as one chunk
  have hsingle : splitText cs co ('P' :: 'a' :: 'g' :: 'e' :: ' ' ::
      (natToChars n ++ ':' :: ' ' :: t)) =
      ['P' :: 'a' :: 'g' :: 'e' :: ' ' :: (natToChars n ++ ':' :: ' ' :: t)] := by
    refine splitText_single_chunk (by omega) hnl hdc ?_ hstrip (by simp)
    simp only [List.length_cons, List.length_append]
    omega
  -- assemble the chunk list
  rw [create_document_chunks, hcomb, hsingle, mkChunkDocs, mkChunkDocs]
  have hpm : pageMatch ('P' :: 'a' :: 'g' :: 'e' :: ' ' ::
      (natToChars n ++ ':' :: ' ' :: t)) = some (digitsVal (natToChars n)) :=
    pageMatch_marked hndne hnd
  have hrm : removeMarkers ('P' :: 'a' :: 'g' :: 'e' :: ' ' ::
      (natToChars n ++ ':' :: ' ' :: t)) = t := by
    rw [removeMarkers]
    simp only [List.length_cons]
    rw [removeMarkersAux, tryMarker_marked hndne hnd]
    exact removeMarkersAux_of_markerFree _ t hmf
  rw [hpm, hrm]
  rfl

/-- C3 amended: `page` metadata values are not monotone in general (a
chunk that does not begin with a `Page N:` marker defaults to page 1,
see the counterexample); monotonicity does hold whenever the document
yields a single chunk, e.g. for a single normalized marker-free page
whose marked text fits within `chunk_size`. -/
theorem c3_amended_pages_monotone_single_chunk
    (n : Nat) (t : List Char) (meta : DocMeta) (cs co : Nat)
    (hco : 0 < co) (hcs : co < cs) (ht : t ≠ [])
    (hnorm : normalizeText t = t) (hmf : markerFreeB t = true)
    (hdot : '.' ∉ t) (hlen : 7 + (natToChars n).length + t.length ≤ cs) :
    List.Pairwise (· ≤ ·)
      ((create_document_chunks [⟨n, t⟩] meta cs co).map
        (fun c => c.metadata.page)) := by
  rw [create_single_page n t meta cs co hco hcs ht hnorm hmf hdot hlen]
  simp

/-- Witness for the amended C3 at a concrete single-page document. -/
theorem c3_amended_witness :
    0 < 100 ∧ 100 < 1000 ∧ "hello".toList ≠ [] ∧
      normalizeText "hello".toList = "hello".toList ∧
      markerFreeB "hello".toList = true ∧ '.' ∉ "hello".toList ∧
      7 + (natToChars 2).length + "hello".toList.length ≤ 1000 ∧
      List.Pairwise (· ≤ ·)
        ((create_document_chunks [⟨2, "hello".toList⟩] sampleMeta 1000 100).map
          (fun c => c.metadata.page)) :=
  ⟨by decide, by decide, by decide, by decide, by decide, by decide, by decide,
    c3_amended_pages_monotone_single_chunk 2 "hello".toList sampleMeta 1000 100
      (by decide) (by decide) (by decide) (by decide) (by decide) (by decide)
      (by decide)⟩

/-- C8 counterexample: a page whose own text contains the marker-shaped
substring `Page 2: ` (pages `[1 ↦ "a Page 2: b"]`, default parameters).
The single emitted chunk's text is `"a b"`: the global
`re.sub(r'Page \d+: ', '', …)` deletes the fake marker from the page's
content, so concatenating chunk texts and collapsing whitespace does not
reproduce the normalized source text — content is lost. -/
theorem c8_counterexample :
    ((create_document_chunks fakeMarkerPages sampleMeta 1000 100).map
        (fun c => c.page_content)).join = "a b".toList ∧
      collapseWs (((create_document_chunks fakeMarkerPages sampleMeta 1000 100).map
        (fun c => c.page_content)).join) ≠
        collapseWs "a Page 2: b".toList := by
  constructor
  · decide
  · decide

/-- C8 amended: the round trip holds for a single-page document whose
normalized text contains no `Page \d+: `-shaped substring and no `.`,
and whose marked stream fits within `chunk_size`: the concatenation of
the emitted chunk texts is then exactly the page text. -/
theorem c8_amended_round_trip
    (n : Nat) (t : List Char) (meta : DocMeta) (cs co : Nat)
    (hco : 0 < co) (hcs : co < cs) (ht : t ≠ [])
    (hnorm : normalizeText t = t) (hmf : markerFreeB t = true)
    (hdot : '.' ∉ t) (hlen : 7 + (natToChars n).length + t.length ≤ cs) :
    ((create_document_chunks [⟨n, t⟩] meta cs co).map
      (fun c => c.page_content)).join = t := by
  rw [create_single_page n t meta cs co hco hcs ht hnorm hmf hdot hlen]
  simp

/-- Witness for the amended C8 at a concrete single-page document. -/
theorem c8_amended_witness :
    0 < 100 ∧ 100 < 1000 ∧ "hello world".toList ≠ [] ∧
      normalizeText "hello world".toList = "hello world".toList ∧
      markerFreeB "hello world".toList = true ∧ '.' ∉ "hello world".toList ∧
      7 + (natToChars 1).length + "hello world".toList.length ≤ 1000 ∧
      ((create_document_chunks [⟨1, "hello world".toList⟩] sampleMeta 1000 100).map
        (fun c => c.page_content)).join = "hello world".toList :=
  ⟨by decide, by decide, by decide, by decide, by decide, by decide, by decide,
    c8_amended_round_trip 1 "hello world".toList sampleMeta 1000 100
      (by decide) (by decide) (by decide) (by decide) (by decide) (by decide)
      (by decide)⟩


theorem pdfPagesLoop_nil_of_empty :
    ∀ (pages : List (List PdfBlock)),
      (∀ blocks ∈ pages, pdfPageText blocks = []) →
      ∀ i, pdfPagesLoop i pages = [] := by
  intro pages
  induction pages with
  | nil => intro _ i; rfl
  | cons b rest ih =>
    intro h i
    rw [pdfPagesLoop]
    simp only [h b (List.mem_cons_self b rest)]
    rw [if_pos trivial]
    exact ih (fun x hx => h x (List.mem_cons_of_mem b hx)) (i + 1)

/-- C5: a document that parses successfully but yields no non-empty page
text (all-whitespace PDF blocks, or a DOCX with no non-empty paragraph or
cell) produces an empty chunk sequence as a successful result — the PDF
and DOCX extractors return `[]`, and `process_document_from_bytes`
returns `Except.ok []`, not an error. -/
theorem c5_no_text_is_empty_success :
    (∀ (d : PdfDoc) (path : List Char) (cs co : Nat),
        (∀ blocks ∈ d.pages, pdfPageText blocks = []) →
        extract_text_from_pdf d path cs co = []) ∧
    (∀ (d : DocxDoc) (path : List Char) (cs co : Nat),
        docxParagraphTexts d = [] →
        extract_text_from_docx d path cs co = []) ∧
    (∀ (b : DocBytes) (fn s : List Char) (cs co : Nat) (d : PdfDoc),
        splitextExt (lowerChars fn) = ".pdf".toList →
        b.asPdf = some d →
        (∀ blocks ∈ d.pages, pdfPageText blocks = []) →
        process_document_from_bytes b fn s cs co = .ok []) := by
  have hpdf : ∀ (d : PdfDoc) (path : List Char) (cs co : Nat),
      (∀ blocks ∈ d.pages, pdfPageText blocks = []) →
      extract_text_from_pdf d path cs co = [] := by
    intro d path cs co h
    rw [extract_text_from_pdf, pdfPagesLoop_nil_of_empty d.pages h 0]
    rw [if_pos rfl]
  refine ⟨hpdf, ?_, ?_⟩
  · intro d path cs co h
    rw [extract_text_from_docx, if_pos h]
  · intro b fn s cs co d hext hb h
    rw [process_document_from_bytes, if_pos hext, hb]
    simp [hpdf d s cs co h]

/-- Witness for C5: a one-page PDF whose blocks are all whitespace, and
the corresponding byte-level call. -/
theorem c5_witness :
    (∀ blocks ∈ blankPdf.pages, pdfPageText blocks = []) ∧
      splitextExt (lowerChars "scan.pdf".toList) = ".pdf".toList ∧
      blankPdfBytes.asPdf = some blankPdf ∧
      process_document_from_bytes blankPdfBytes "scan.pdf".toList [] 1000 100 =
        .ok [] :=
  ⟨by decide, by decide, rfl,
    c5_no_text_is_empty_success.2.2 blankPdfBytes "scan.pdf".toList [] 1000 100
      blankPdf (by decide) rfl (by decide)⟩

/-- C6: for every input whose filename extension (after lower-casing) is
not `.pdf`, `.docx` or `.doc`, `process_document_from_bytes` raises the
"Unsupported document type" error.  The result does not depend on the
document bytes at all — no format parser is invoked on them. -/
theorem c6_unsupported_extension_error :
    ∀ (b : DocBytes) (fn s : List Char) (cs co : Nat),
      splitextExt (lowerChars fn) ∉
        [".pdf".toList, ".docx".toList, ".doc".toList] →
      process_document_from_bytes b fn s cs co =
        .error ("Unsupported document type: ".toList ++
          splitextExt (lowerChars fn)) := by
  intro b fn s cs co h
  simp only [List.mem_cons, List.not_mem_nil, or_false, not_or] at h
  obtain ⟨h1, h2, h3⟩ := h
  rw [process_document_from_bytes, if_neg h1, if_neg (by tauto)]

/-- Witness for C6: a `.txt` filename with unparseable bytes. -/
theorem c6_witness :
    splitextExt (lowerChars "Notes.TXT".toList) ∉
        [".pdf".toList, ".docx".toList, ".doc".toList] ∧
      process_document_from_bytes opaqueBytes "Notes.TXT".toList [] 1000 100 =
        .error ("Unsupported document type: ".toList ++
          splitextExt (lowerChars "Notes.TXT".toList)) :=
  ⟨by decide,
    c6_unsupported_extension_error opaqueBytes "Notes.TXT".toList [] 1000 100
      (by decide)⟩


theorem dropWhile_isWs_replicate {c : Char} (hc : isWs c = false) (k : Nat) :
    List.dropWhile isWs (List.replicate k c) = List.replicate k c := by
  cases k with
  | zero => rfl
  | succ m =>
    rw [List.replicate_succ, List.dropWhile_cons, hc]
    simp

theorem stripChars_replicate {c : Char} (hc : isWs c = false) (k : Nat) :
    stripChars (List.replicate k c) = List.replicate k c := by
  unfold stripChars
  rw [dropWhile_isWs_replicate hc, List.reverse_replicate,
    dropWhile_isWs_replicate hc, List.reverse_replicate]

theorem stripChars_replicate_append_nn {c : Char} (hc : isWs c = false) (k : Nat) :
    stripChars (List.replicate k c ++ ['\n', '\n']) = List.replicate k c := by
  cases k with
  | zero => simp [stripChars, List.dropWhile, isWs]
  | succ m =>
    unfold stripChars
    have h1 : List.dropWhile isWs (List.replicate (m + 1) c ++ ['\n', '\n']) =
        List.replicate (m + 1) c ++ ['\n', '\n'] := by
      rw [List.replicate_succ, List.cons_append, List.dropWhile_cons, hc]
      simp
    rw [h1, List.reverse_append, List.reverse_replicate]
    rw [show (['\n', '\n'] : List Char).reverse = ['\n', '\n'] from rfl]
    rw [show (['\n', '\n'] : List Char) ++ List.replicate (m + 1) c =
      '\n' :: '\n' :: List.replicate (m + 1) c from rfl]
    rw [List.dropWhile_cons, show isWs '\n' = true from rfl]
    simp only [if_true]
    rw [List.dropWhile_cons, show isWs '\n' = true from rfl]
    simp only [if_true]
    rw [dropWhile_isWs_replicate hc, List.reverse_replicate]

/-- C7 counterexample: a DOCX whose 2500 characters of concatenated
paragraph text arrive with no internal break (one single paragraph).
Extraction yields exactly ONE synthetic RawPage of 2500 characters, not
3 pages of ≈1000/1000/500: the 1000-character threshold is only checked
at paragraph boundaries, so an oversized paragraph becomes one oversized
RawPage. -/
theorem c7_counterexample :
    (docxPagesLoop (docxParagraphTexts docxOnePara) [] 1).map
        (fun p => p.text.length) = [2500] ∧
      (docxPagesLoop (docxParagraphTexts docxOnePara) [] 1).length ≠ 3 := by
  have hstrip := stripChars_replicate (c := 'a') (by decide) 2500
  have hPne : (List.replicate 2500 'a' : List Char) ≠ [] := by
    intro h
    have h2 := congrArg List.length h
    rw [List.length_replicate] at h2
    exact absurd h2 (by decide)
  have hparas : docxParagraphTexts docxOnePara = [List.replicate 2500 'a'] := by
    rw [docxParagraphTexts]
    rw [show docxOnePara.paragraphs = [List.replicate 2500 'a'] from rfl,
      show docxOnePara.tables = [] from rfl]
    rw [List.filterMap_cons, hstrip, if_neg hPne, List.filterMap_nil]
    rfl
  have hlen2 : (List.replicate 2500 'a' ++ ['\n', '\n'] : List Char).length =
      2502 := by
    rw [List.length_append, List.length_replicate]
    rfl
  have hpages : docxPagesLoop (docxParagraphTexts docxOnePara) [] 1 =
      [⟨1, List.replicate 2500 'a'⟩] := by
    rw [hparas, docxPagesLoop]
    rw [show ([] : List Char) ++ List.replicate 2500 'a' ++ ['\n', '\n'] =
      List.replicate 2500 'a' ++ ['\n', '\n'] from by rw [List.nil_append]]
    rw [if_pos (by rw [hlen2]; decide)]
    rw [stripChars_replicate_append_nn (by decide) 2500]
    rw [docxPagesLoop, if_pos (show stripChars ([] : List Char) = [] from rfl)]
  rw [hpages]
  constructor
  · rw [List.map_cons, List.map_nil]
    rw [show (⟨1, List.replicate 2500 'a'⟩ : PageInfo).text =
      List.replicate 2500 'a' from rfl]
    rw [List.length_replicate]
  · rw [List.length_cons, List.length_nil]
    decide

set_option maxRecDepth 100000 in
/-- C7 amended: three ≈1000/1000/500 synthetic RawPages arise when
paragraph boundaries fall just after each threshold crossing — the same
2500 characters as five 500-character paragraphs give pages of 1002,
1002 and 500 characters (numbered 1, 2, 3), and running the full DOCX
extraction with the default parameters emits chunks whose page
attributions are `[1, 1, 2, 1, 3]`, so every one of the three pages
contributes at least one chunk. -/
theorem c7_amended_five_paragraphs :
    (docxPagesLoop (docxParagraphTexts docxFivePara) [] 1).map
        (fun p => (p.page, p.text.length)) = [(1, 1002), (2, 1002), (3, 500)] ∧
      (extract_text_from_docx docxFivePara "d.docx".toList 1000 100).map
        (fun c => c.metadata.page) = [1, 1, 2, 1, 3] := by
  constructor
  · decide
  · decide

theorem map_setFilename_mkChunkDocs (fn x : List Char) (m : DocMeta) :
    ∀ (chunks : List (List Char)) (i : Nat),
      (mkChunkDocs { m with file_name := x } i chunks).map (setFilename fn) =
        (mkChunkDocs m i chunks).map (setFilename fn) := by
  intro chunks
  induction chunks with
  | nil => intro i; rfl
  | cons ch rest ih =>
    intro i
    rw [mkChunkDocs, mkChunkDocs, List.map_cons, List.map_cons, ih (i + 1)]
    rfl

theorem map_setFilename_create (fn x : List Char) (pages : List PageInfo)
    (m : DocMeta) (cs co : Nat) :
    (create_document_chunks pages { m with file_name := x } cs co).map
        (setFilename fn) =
      (create_document_chunks pages m cs co).map (setFilename fn) := by
  rw [create_document_chunks, create_document_chunks]
  exact map_setFilename_mkChunkDocs fn x m _ 0

/-- C9: the pipeline is deterministic across runs.  The only run-varying
input is the randomly named scratch file (`temp_path`), whose basename
flows into the intermediate `file_name` / `source` metadata before both
are overwritten with the caller's filename — so two runs of
`process_document_from_bytes` on the same
`(bytes, filename, chunk_size, chunk_overlap)` but different scratch
paths produce identical chunk texts and identical metadata. -/
theorem c9_deterministic_across_runs :
    ∀ (b : DocBytes) (fn s1 s2 : List Char) (cs co : Nat),
      process_document_from_bytes b fn s1 cs co =
        process_document_from_bytes b fn s2 cs co := by
  intro b fn s1 s2 cs co
  rw [process_document_from_bytes, process_document_from_bytes]
  by_cases h1 : splitextExt (lowerChars fn) = ".pdf".toList
  · rw [if_pos h1, if_pos h1]
    cases b.asPdf with
    | none => rfl
    | some d =>
      simp only [Except.ok.injEq]
      rw [extract_text_from_pdf, extract_text_from_pdf]
      by_cases hp : pdfPagesLoop 0 d.pages = []
      · rw [if_pos hp, if_pos hp]
      · rw [if_neg hp, if_neg hp]
        have he : pdfDocMeta d s1 =
            { pdfDocMeta d s2 with file_name := basenameChars s1 } := rfl
        rw [he]
        exact map_setFilename_create fn (basenameChars s1) _ (pdfDocMeta d s2)
          cs co
  · rw [if_neg h1, if_neg h1]
    by_cases h2 : splitextExt (lowerChars fn) = ".docx".toList ∨
        splitextExt (lowerChars fn) = ".doc".toList
    · rw [if_pos h2, if_pos h2]
      cases b.asDocx with
      | none => rfl
      | some d =>
        simp only [Except.ok.injEq]
        rw [extract_text_from_docx, extract_text_from_docx]
        by_cases hp : docxParagraphTexts d = []
        · rw [if_pos hp, if_pos hp]
        · rw [if_neg hp, if_neg hp]
          have he : docxDocMeta d s1 =
              { docxDocMeta d s2 with file_name := basenameChars s1 } := rfl
          rw [he]
          exact map_setFilename_create fn (basenameChars s1) _
            (docxDocMeta d s2) cs co
    · rw [if_neg h2, if_neg h2]

/-- C10: `process_pdf_from_bytes` is a pure alias of
`process_document_from_bytes` (defaults `filename="document.pdf"`,
`chunk_size=1000`, `chunk_overlap=100`): on every input it returns
exactly the same result. -/
theorem c10_process_pdf_alias :
    ∀ (b : DocBytes) (fn s : List Char) (cs co : Nat),
      process_pdf_from_bytes b fn s cs co =
        process_document_from_bytes b fn s cs co :=
  fun _ _ _ _ _ => rfl
